import Mathlib

/-!
Verification of the generic-programming algorithm collection.

Ranges are modelled as Lean lists; a cursor into a range is either a
position (a `Nat` index, with `l.length` playing the role of the `last`
cursor) or, for the simple single-pass algorithms, the offset of the
returned cursor from `first`.  Each definition below is a direct
transcription of the corresponding C++ template.
-/

namespace GenericProg

/-- `find(first, last, value)`: linear scan for the first element equal to
`value`; returns the offset of the found cursor from `first`
(`l.length` when the value does not occur, i.e. the `last` cursor). -/
def find [DecidableEq α] : List α → α → Nat
  | [], _ => 0
  | x :: xs, v => if x = v then 0 else find xs v + 1

/-- `reduce(first, last, init, fn)`: fold `init` left-to-right with
`fn(accumulator, element)` over the whole range. -/
def reduce (fn : α → α → α) : List α → α → α
  | [], init => init
  | x :: xs, init => reduce fn xs (fn init x)

/-- `reduce(first, last)` (default overload): starts from the
default-constructed value `dflt` (`T{}` in the source) and accumulates with
`addAssign` (`init += *first` in the source). -/
def reduce_default (addAssign : α → α → α) (dflt : α) : List α → α
  | [] => dflt
  | x :: xs => reduce_default addAssign (addAssign dflt x) xs

/-- Dual-range `reduce(first1, last1, first2, init, binaryOp, reduceOp)`:
while `first1 != last1`, `init = reduceOp(init, binaryOp(*first1, *first2))`
and both cursors advance.  The second range has no sentinel in the source
(the caller guarantees it is at least as long as the first); the model
stops when either list is exhausted. -/
def reduce2 (binaryOp reduceOp : α → α → α) : List α → List α → α → α
  | x :: xs, y :: ys, init => reduce2 binaryOp reduceOp xs ys (reduceOp init (binaryOp x y))
  | _, _, init => init

/-- `fast_reduce`: for random-access cursors, while `last1 - first1 > 4`
(at least five elements remain) combine a block of four `binaryOp` results
with a balanced pairwise tree of `reduceOp`, fold it into the accumulator
and advance both cursors by four; the remainder falls back to the
sequential dual-range `reduce`. -/
def fast_reduce (binaryOp reduceOp : α → α → α) : List α → List α → α → α
  | x0 :: x1 :: x2 :: x3 :: x4 :: xs, y0 :: y1 :: y2 :: y3 :: ys, init =>
      -- aux1 = reduceOp (binaryOp first1[0], first2[0]) (binaryOp first1[1], first2[1]),
      -- aux2 likewise on elements 2 and 3, aux3 = reduceOp aux1 aux2,
      -- init  = reduceOp init aux3, then both cursors advance by 4
      fast_reduce binaryOp reduceOp (x4 :: xs) ys
        (reduceOp init
          (reduceOp (reduceOp (binaryOp x0 y0) (binaryOp x1 y1))
            (reduceOp (binaryOp x2 y2) (binaryOp x3 y3))))
  | l1, l2, init => reduce2 binaryOp reduceOp l1 l2 init

/-- `faster_reduce`: same shape as `fast_reduce` with blocks of eight
(`last1 - first1 > 8`, i.e. at least nine elements remain) combined by a
three-level balanced tree of `reduceOp`. -/
def faster_reduce (binaryOp reduceOp : α → α → α) : List α → List α → α → α
  | x0 :: x1 :: x2 :: x3 :: x4 :: x5 :: x6 :: x7 :: x8 :: xs,
    y0 :: y1 :: y2 :: y3 :: y4 :: y5 :: y6 :: y7 :: ys, init =>
      -- aux1..aux4 pair up the eight binaryOp results, aux5 = reduceOp aux1 aux2,
      -- aux6 = reduceOp aux3 aux4, aux7 = reduceOp aux5 aux6,
      -- init = reduceOp init aux7, then both cursors advance by 8
      faster_reduce binaryOp reduceOp (x8 :: xs) ys
        (reduceOp init
          (reduceOp
            (reduceOp (reduceOp (binaryOp x0 y0) (binaryOp x1 y1))
              (reduceOp (binaryOp x2 y2) (binaryOp x3 y3)))
            (reduceOp (reduceOp (binaryOp x4 y4) (binaryOp x5 y5))
              (reduceOp (binaryOp x6 y6) (binaryOp x7 y7)))))
  | l1, l2, init => reduce2 binaryOp reduceOp l1 l2 init

/-- `our_find_if(first, last, pred)` (5.parallel/parallel_algorithms.h):
linear scan by cursor over the list `l`; cursors are indices, `last` is the
sentinel index.  The C++ loop guard is `first != last`; in every call the
cursors satisfy `first <= last`, which the model's guard `first < last`
makes explicit. -/
def our_find_if [Inhabited α] (l : List α) (pred : α → Bool) (first last : Nat) : Nat :=
  if first < last then
    if pred (l.getD first default) then first
    else our_find_if l pred (first + 1) last
  else first
termination_by last - first
decreasing_by omega

/-- `parallel_find_if(first, last, pred)`: split `[first, last)` at
`limit1/limit2/limit3` into four chunks of `distance/4` elements (the
fourth chunk takes the remainder), search each chunk with `our_find_if`
(each worker's result is pure because `pred` is side-effect free), and
return the first chunk's hit, else the second's, else the third's, else
whatever the fourth worker returns. -/
def parallel_find_if [Inhabited α] (l : List α) (pred : α → Bool) (first last : Nat) : Nat :=
  let chunk_size := (last - first) / 4
  let limit1 := first + chunk_size
  let limit2 := limit1 + chunk_size
  let limit3 := limit2 + chunk_size
  let found1 := our_find_if l pred first limit1
  if found1 ≠ limit1 then found1
  else
    let found2 := our_find_if l pred limit1 limit2
    if found2 ≠ limit2 then found2
    else
      let found3 := our_find_if l pred limit2 limit3
      if found3 ≠ limit3 then found3
      else our_find_if l pred limit3 last

/-- `partition_point_n(first, n, pred)` for random-access cursors (the
`next` overload for random-access iterators is `first + n`): binary
subdivision of the counted range starting at index `first`. -/
def partition_point_n [Inhabited α] (l : List α) (pred : α → Bool) (first n : Nat) : Nat :=
  if n = 0 then first
  else
    let half := n / 2
    let mid := first + half
    if pred (l.getD mid default) then partition_point_n l pred (mid + 1) (n - (half + 1))
    else partition_point_n l pred first half
termination_by n
decreasing_by all_goals omega

/-- `partition_point(first, last, pred)`: delegates to `partition_point_n`
with `n = distance(first, last)`. -/
def partition_point [Inhabited α] (l : List α) (pred : α → Bool) (first last : Nat) : Nat :=
  partition_point_n l pred first (last - first)

/-- `binary_search(first, last, value)`: partition point of the predicate
`other < value`, then dereference-and-compare when the returned cursor is
not the sentinel. -/
def binary_search [Inhabited α] [DecidableEq α] (lt : α → α → Bool)
    (l : List α) (first last : Nat) (value : α) : Bool :=
  let pred := fun other => lt other value
  let found := partition_point l pred first last
  if found ≠ last ∧ l.getD found default = value then true else false

/-- The buggy forward-iterator `next(first, n)` helper: the loop body
`++first; ++n` INCREMENTS the 64-bit count `n` instead of decrementing it,
so the loop only stops once `n` wraps around to zero; `n` is modelled as a
`Nat` reduced modulo `2^64`, and the cursor is an index advanced by one per
iteration. -/
def next_fwd (first n : Nat) : Nat :=
  if n % 2 ^ 64 = 0 then first
  else next_fwd (first + 1) (n % 2 ^ 64 + 1)
termination_by (2 ^ 64 - n % 2 ^ 64) % 2 ^ 64
decreasing_by omega

/-- Scanning loop of `min_element`: `rest` is the unscanned tail starting at
index `i`, `m` is the value at the current minimum index `best`
(`*minimum` in the source); the candidate replaces the minimum when
`comp(*first, *minimum)` holds. -/
def min_element_go (comp : α → α → Bool) : List α → α → Nat → Nat → Nat
  | [], _, _, best => best
  | x :: xs, m, i, best =>
      if comp x m then min_element_go comp xs x (i + 1) i
      else min_element_go comp xs m (i + 1) best

/-- `min_element(first, last, comp)`: empty range returns `last`
(index `0 = length`); otherwise scan from the second element. -/
def min_element (comp : α → α → Bool) : List α → Nat
  | [] => 0
  | x :: xs => min_element_go comp xs x 1 0

/-- Scanning loop of `max_element`: the candidate replaces the maximum when
`not comp(*first, *maximum)` holds (so ties move the maximum forward). -/
def max_element_go (comp : α → α → Bool) : List α → α → Nat → Nat → Nat
  | [], _, _, best => best
  | x :: xs, m, i, best =>
      if comp x m then max_element_go comp xs m (i + 1) best
      else max_element_go comp xs x (i + 1) i

/-- `max_element(first, last, comp)`: empty range returns `last`;
otherwise scan from the second element. -/
def max_element (comp : α → α → Bool) : List α → Nat
  | [] => 0
  | x :: xs => max_element_go comp xs x 1 0

/-- Paired scanning loop of `minmax_element`: processes the unscanned tail
(starting at index `i`) two elements at a time; `mnv/mni` and `mxv/mxi` are
the value and index of the running minimum and maximum.  A pair is first
ordered by `comp(*potential_max, *potential_min)`, then only the smaller is
checked against the minimum and only the larger against the maximum; a
final unpaired element (odd tail) is checked against both, maximum first. -/
def minmax_element_go (comp : α → α → Bool) :
    List α → α → Nat → α → Nat → Nat → Nat × Nat
  | [], _, mni, _, mxi, _ => (mni, mxi)
  | [x], mnv, mni, mxv, mxi, i =>
      let p1 := if ¬ comp x mxv then (x, i) else (mxv, mxi)
      let p2 := if comp x mnv then (x, i) else (mnv, mni)
      (p2.2, p1.2)
  | x :: y :: rest, mnv, mni, mxv, mxi, i =>
      let pm := if comp y x then (y, i + 1) else (x, i)
      let pM := if comp y x then (x, i) else (y, i + 1)
      let mn := if comp pm.1 mnv then pm else (mnv, mni)
      let mx := if ¬ comp pM.1 mxv then pM else (mxv, mxi)
      minmax_element_go comp rest mn.1 mn.2 mx.1 mx.2 (i + 2)

/-- `minmax_element(first, last, comp)`: base cases `(last, last)` for the
empty range and `(pos, pos)` for a singleton; otherwise the first two
cursors seed `minimum = first`, `maximum = second`, and the source then
SWAPS them when `comp(*minimum, *maximum)` holds (i.e. when they are
already in the correct order), before the paired scan of the rest. -/
def minmax_element (comp : α → α → Bool) : List α → Nat × Nat
  | [] => (0, 0)
  | [_] => (0, 0)
  | x :: y :: rest =>
      let mn := if comp x y then (y, 1) else (x, 0)
      let mx := if comp x y then (x, 0) else (y, 1)
      minmax_element_go comp rest mn.1 mn.2 mx.1 mx.2 2

/-! ### Basic facts -/

theorem find_le_length [DecidableEq α] (l : List α) (v : α) : find l v ≤ l.length := by
  induction l with
  | nil => simp [find]
  | cons x xs ih =>
      by_cases hx : x = v
      · simp [find, hx]
      · simp only [find, if_neg hx, List.length_cons]
        omega

/-- C8: `find` returns the end cursor exactly when the value is absent,
and otherwise the position of the first occurrence: the found position
holds the value and every earlier position does not. -/
theorem find_first_occurrence [DecidableEq α] (l : List α) (v : α) :
    (find l v = l.length ↔ v ∉ l) ∧
    (find l v < l.length → l[find l v]? = some v) ∧
    (∀ j, j < find l v → l[j]? ≠ some v) := by
  induction l with
  | nil =>
      refine ⟨by simp [find], by simp [find], ?_⟩
      intro j hj
      simp [find] at hj
  | cons x xs ih =>
      by_cases hx : x = v
      · subst hx
        refine ⟨?_, ?_, ?_⟩
        · simp [find]
        · intro _; simp [find]
        · intro j hj; simp [find] at hj
      · refine ⟨?_, ?_, ?_⟩
        · simp only [find, if_neg hx, List.length_cons, List.mem_cons]
          rw [Nat.add_right_cancel_iff, ih.1]
          constructor
          · intro h hmem
            rcases hmem with h1 | h2
            · exact hx h1.symm
            · exact h h2
          · intro h hmem; exact h (Or.inr hmem)
        · intro h
          simp only [find, if_neg hx] at h ⊢
          rw [List.getElem?_cons_succ]
          exact ih.2.1 (by simpa using h)
        · intro j hj
          simp only [find, if_neg hx] at hj
          match j with
          | 0 =>
              simp only [List.getElem?_cons_zero]
              intro hc
              exact hx (Option.some.inj hc)
          | j + 1 =>
              rw [List.getElem?_cons_succ]
              exact ih.2.2 j (by omega)

/-- C8 witness: on `[1,3,5]` searching for `3`, the found position is
within the range and holds the value. -/
theorem find_first_occurrence_witness :
    find [1, 3, 5] 3 < [1, 3, 5].length ∧ [1, 3, 5][find [1, 3, 5] 3]? = some 3 :=
  ⟨by decide, (find_first_occurrence [1, 3, 5] 3).2.1 (by decide)⟩

/-- C9: the default `reduce` overload (accumulating with `+=` from the
default-constructed value) agrees with the binary-op overload called with
the zero value and `plus`, whenever `+=` agrees with `+` and the
default-constructed value is that zero. -/
theorem reduce_default_eq_reduce (addAssign add : α → α → α) (dflt z : α) (l : List α)
    (haa : ∀ a b, addAssign a b = add a b) (hz : dflt = z) :
    reduce_default addAssign dflt l = reduce add l z := by
  subst hz
  induction l generalizing dflt with
  | nil => rfl
  | cons x xs ih =>
      simp only [reduce_default, reduce, haa]
      exact ih (add dflt x)

/-- C9 witness: with natural-number addition, default value `0`. -/
theorem reduce_default_eq_reduce_witness :
    (∀ a b : Nat, a + b = a + b) ∧ (0 : Nat) = 0 ∧
      reduce_default (· + ·) 0 [1, 2, 3] = reduce (· + ·) [1, 2, 3] 0 :=
  ⟨fun _ _ => rfl, rfl,
    reduce_default_eq_reduce (· + ·) (· + ·) 0 0 [1, 2, 3] (fun _ _ => rfl) rfl⟩

/-- C10: on an empty range (`first = last`) the chunk size is `0`, all
three interior limits equal `first`, and `parallel_find_if` returns the
end cursor. -/
theorem parallel_find_if_empty [Inhabited α] (l : List α) (pred : α → Bool) (first : Nat) :
    parallel_find_if l pred first first = first := by
  have h : our_find_if l pred first first = first := by
    rw [our_find_if]; simp
  simp [parallel_find_if, h]

/-- C3: evaluating `minmax_element` with `<` at `[3,1,4,1,5,9,2,6]`: the
code returns the cursor pair `(3, 5)` — the minimum cursor points at the
SECOND `1` (index 3), not the first (index 1) as specified, because the
initial swap of `minimum`/`maximum` fires when the two seeds are already
correctly ordered.  The empty-range and singleton base cases do match the
specification. -/
theorem minmax_element_failing_input :
    minmax_element (fun a b : Nat => a < b) [3, 1, 4, 1, 5, 9, 2, 6] = (3, 5) ∧
    minmax_element (fun a b : Nat => a < b) [3, 1, 4, 1, 5, 9, 2, 6] ≠ (1, 5) ∧
    minmax_element (fun a b : Nat => a < b) [] = (0, 0) ∧
    minmax_element (fun a b : Nat => a < b) [7] = (0, 0) := by
  refine ⟨by decide, by decide, rfl, rfl⟩

/-- Closed form of the buggy forward-iterator `next`: the cursor advances
by `(2^64 - n mod 2^64) mod 2^64` positions — the number of increments it
takes the 64-bit count to wrap around to zero. -/
theorem next_fwd_closed (first n : Nat) :
    next_fwd first n = first + (2 ^ 64 - n % 2 ^ 64) % 2 ^ 64 := by
  induction first, n using next_fwd.induct with
  | case1 first n h => rw [next_fwd, if_pos h]; omega
  | case2 first n h ih =>
      rw [next_fwd, if_neg h, ih]
      omega

/-- C7: the forward-iterator `next(first, n)` helper increments the count
`n` instead of decrementing it, so `next(first, 1)` advances the cursor
`2^64 - 1` positions (until the 64-bit count wraps) instead of one — it
runs off any real range, and `partition_point_n` on forward cursors does
not step positionally by `n` advance-by-one steps as specified. -/
theorem next_fwd_increments_count :
    next_fwd 0 1 = 2 ^ 64 - 1 ∧ next_fwd 0 1 ≠ 1 := by
  have h := next_fwd_closed 0 1
  constructor
  · rw [h]; omega
  · rw [h]; omega

/-! ### C2: blocked dual-range reductions -/

/-- With an associative `reduceOp`, `fast_reduce` agrees with the strictly
sequential dual-range `reduce`. -/
theorem fast_reduce_eq_reduce2 (b r : α → α → α)
    (hassoc : ∀ x y z, r (r x y) z = r x (r y z)) :
    ∀ (l1 l2 : List α) (init : α),
      fast_reduce b r l1 l2 init = reduce2 b r l1 l2 init := by
  intro l1 l2 init
  induction l1, l2, init using fast_reduce.induct b r with
  | case1 x0 x1 x2 x3 x4 xs y0 y1 y2 y3 ys init ih =>
      rw [fast_reduce, ih]
      simp only [reduce2, hassoc]
  | case2 l1 l2 init h =>
      rw [fast_reduce.eq_def]
      split
      · rename_i x0 x1 x2 x3 x4 xs y0 y1 y2 y3 ys
        exact (h x0 x1 x2 x3 x4 xs y0 y1 y2 y3 ys rfl rfl).elim
      · rfl

/-- With an associative `reduceOp`, `faster_reduce` agrees with the
strictly sequential dual-range `reduce`. -/
theorem faster_reduce_eq_reduce2 (b r : α → α → α)
    (hassoc : ∀ x y z, r (r x y) z = r x (r y z)) :
    ∀ (l1 l2 : List α) (init : α),
      faster_reduce b r l1 l2 init = reduce2 b r l1 l2 init := by
  intro l1 l2 init
  induction l1, l2, init using faster_reduce.induct b r with
  | case1 x0 x1 x2 x3 x4 x5 x6 x7 x8 xs y0 y1 y2 y3 y4 y5 y6 y7 ys init ih =>
      rw [faster_reduce, ih]
      simp only [reduce2, hassoc]
  | case2 l1 l2 init h =>
      rw [faster_reduce.eq_def]
      split
      · rename_i x0 x1 x2 x3 x4 x5 x6 x7 x8 xs y0 y1 y2 y3 y4 y5 y6 y7 ys
        exact (h x0 x1 x2 x3 x4 x5 x6 x7 x8 xs y0 y1 y2 y3 y4 y5 y6 y7 ys rfl rfl).elim
      · rfl

/-- C2: for equal-length ranges and an associative `reduceOp`, both
`fast_reduce` (blocks of 4) and `faster_reduce` (blocks of 8) return
exactly the result of the strictly sequential left-to-right dual-range
`reduce`. -/
theorem fast_and_faster_reduce_eq (b r : α → α → α) (l1 l2 : List α) (init : α)
    (_hlen : l1.length = l2.length)
    (hassoc : ∀ x y z, r (r x y) z = r x (r y z)) :
    fast_reduce b r l1 l2 init = reduce2 b r l1 l2 init ∧
    faster_reduce b r l1 l2 init = reduce2 b r l1 l2 init :=
  ⟨fast_reduce_eq_reduce2 b r hassoc l1 l2 init,
   faster_reduce_eq_reduce2 b r hassoc l1 l2 init⟩

/-- C2 witness: multiply-then-add over two ten-element ranges. -/
theorem fast_and_faster_reduce_eq_witness :
    (List.range 10).length = (List.replicate 10 2).length ∧
    fast_reduce (· * ·) (· + ·) (List.range 10) (List.replicate 10 2) 5 =
      reduce2 (· * ·) (· + ·) (List.range 10) (List.replicate 10 2) 5 ∧
    faster_reduce (· * ·) (· + ·) (List.range 10) (List.replicate 10 2) 5 =
      reduce2 (· * ·) (· + ·) (List.range 10) (List.replicate 10 2) 5 :=
  ⟨by decide,
   (fast_and_faster_reduce_eq (· * ·) (· + ·) (List.range 10) (List.replicate 10 2) 5
     (by decide) fun x y z => Nat.add_assoc x y z).1,
   (fast_and_faster_reduce_eq (· * ·) (· + ·) (List.range 10) (List.replicate 10 2) 5
     (by decide) fun x y z => Nat.add_assoc x y z).2⟩

/-! ### C1/C10: parallel find -/

theorem our_find_if_split_aux [Inhabited α] (l : List α) (p : α → Bool) :
    ∀ (n a b c : Nat), b - a ≤ n → a ≤ b → b ≤ c →
      our_find_if l p a c =
        (if our_find_if l p a b ≠ b then our_find_if l p a b else our_find_if l p b c) := by
  intro n
  induction n with
  | zero =>
      intro a b c h1 h2 _
      have hab : a = b := by omega
      subst hab
      have hbb : our_find_if l p a a = a := by rw [our_find_if]; simp
      simp [hbb]
  | succ n ih =>
      intro a b c h1 h2 h3
      by_cases hab : a < b
      · have hac : a < c := by omega
        rw [our_find_if]
        rw [if_pos hac]
        by_cases hp : p (l.getD a default)
        · rw [if_pos hp]
          rw [our_find_if]
          rw [if_pos hab, if_pos hp]
          have hne : a ≠ b := by omega
          simp [hne]
        · rw [if_neg hp]
          rw [ih (a + 1) b c (by omega) (by omega) h3]
          conv_rhs => rw [our_find_if]
          rw [if_pos hab, if_neg hp]
      · have hab' : a = b := by omega
        subst hab'
        have hbb : our_find_if l p a a = a := by rw [our_find_if]; simp
        simp [hbb]

/-- Splitting a sequential search at an interior cursor `b`: search
`[a, b)` first and keep its hit, otherwise continue on `[b, c)`. -/
theorem our_find_if_split [Inhabited α] (l : List α) (p : α → Bool)
    (a b c : Nat) (hab : a ≤ b) (hbc : b ≤ c) :
    our_find_if l p a c =
      (if our_find_if l p a b ≠ b then our_find_if l p a b else our_find_if l p b c) :=
  our_find_if_split_aux l p (b - a) a b c (Nat.le_refl _) hab hbc

/-- `our_find_if` returns a cursor in `[first, last]`; it satisfies the
predicate when it is not `last`, and every earlier position fails it. -/
theorem our_find_if_spec [Inhabited α] (l : List α) (p : α → Bool) :
    ∀ (n a b : Nat), b - a ≤ n → a ≤ b →
      a ≤ our_find_if l p a b ∧ our_find_if l p a b ≤ b ∧
      (our_find_if l p a b < b → p (l.getD (our_find_if l p a b) default) = true) ∧
      (∀ j, a ≤ j → j < our_find_if l p a b → p (l.getD j default) = false) := by
  intro n
  induction n with
  | zero =>
      intro a b h1 h2
      have hab : a = b := by omega
      subst hab
      have hbb : our_find_if l p a a = a := by rw [our_find_if]; simp
      rw [hbb]
      refine ⟨Nat.le_refl _, Nat.le_refl _, by omega, by omega⟩
  | succ n ih =>
      intro a b h1 h2
      by_cases hab : a < b
      · rw [our_find_if, if_pos hab]
        by_cases hp : p (l.getD a default)
        · rw [if_pos hp]
          exact ⟨Nat.le_refl _, by omega, fun _ => hp, by omega⟩
        · rw [if_neg hp]
          obtain ⟨ha1, ha2, ha3, ha4⟩ := ih (a + 1) b (by omega) (by omega)
          refine ⟨by omega, ha2, ha3, ?_⟩
          intro j hj1 hj2
          rcases Nat.eq_or_lt_of_le hj1 with hj | hj
          · subst hj
            exact Bool.eq_false_iff.mpr hp
          · exact ha4 j (by omega) hj2
      · have hab' : a = b := by omega
        subst hab'
        have hbb : our_find_if l p a a = a := by rw [our_find_if]; simp
        rw [hbb]
        refine ⟨Nat.le_refl _, Nat.le_refl _, by omega, by omega⟩

/-- C1: on a non-empty random-access range, `parallel_find_if` returns
exactly the cursor of the sequential `our_find_if` (the chunks are
disjoint and ordered, and a worker's hit in `[limitK, limitK+1)` is
returned only when all earlier workers missed); that common result is the
first position in `[first, last)` satisfying `pred`, or `last` when none
does. -/
theorem parallel_find_if_eq_sequential [Inhabited α] (l : List α) (pred : α → Bool)
    (first last : Nat) (hne : first < last) (_hlen : last ≤ l.length) :
    parallel_find_if l pred first last = our_find_if l pred first last ∧
    first ≤ our_find_if l pred first last ∧
    our_find_if l pred first last ≤ last ∧
    (our_find_if l pred first last < last →
      pred (l.getD (our_find_if l pred first last) default) = true) ∧
    (∀ j, first ≤ j → j < our_find_if l pred first last →
      pred (l.getD j default) = false) := by
  have hcs : (last - first) / 4 * 4 ≤ last - first := by omega
  set cs := (last - first) / 4 with hcsdef
  have h1 : first ≤ first + cs := by omega
  have h2 : first + cs ≤ first + cs + cs := by omega
  have h3 : first + cs + cs ≤ first + cs + cs + cs := by omega
  have h4 : first + cs + cs + cs ≤ last := by omega
  constructor
  · rw [our_find_if_split l pred first (first + cs) last h1 (by omega)]
    rw [our_find_if_split l pred (first + cs) (first + cs + cs) last h2 (by omega)]
    rw [our_find_if_split l pred (first + cs + cs) (first + cs + cs + cs) last h3 h4]
    simp only [parallel_find_if]
  · obtain ⟨ha1, ha2, ha3, ha4⟩ :=
      our_find_if_spec l pred (last - first) first last (Nat.le_refl _) (by omega)
    exact ⟨ha1, ha2, ha3, ha4⟩

/-- C1 witness: searching `[0..9]` for the value `9` (the last element),
the parallel and sequential searches coincide. -/
theorem parallel_find_if_eq_sequential_witness :
    (0 : Nat) < 10 ∧ (10 : Nat) ≤ [0, 1, 2, 3, 4, 5, 6, 7, 8, 9].length ∧
    parallel_find_if [0, 1, 2, 3, 4, 5, 6, 7, 8, 9] (fun x => x == 9) 0 10 =
      our_find_if [0, 1, 2, 3, 4, 5, 6, 7, 8, 9] (fun x => x == 9) 0 10 :=
  ⟨by decide, by decide,
   (parallel_find_if_eq_sequential [0, 1, 2, 3, 4, 5, 6, 7, 8, 9] (fun x => x == 9) 0 10
     (by decide) (by decide)).1⟩

/-! ### C4/C5: binary subdivision -/

/-- `partition_point_n` never leaves the counted range. -/
theorem partition_point_n_bounds [Inhabited α] (l : List α) (p : α → Bool) :
    ∀ (n first : Nat),
      first ≤ partition_point_n l p first n ∧ partition_point_n l p first n ≤ first + n := by
  intro n
  induction n using Nat.strong_induction_on with
  | _ n ih =>
      intro first
      rw [partition_point_n]
      by_cases hn : n = 0
      · simp [hn]
      · rw [if_neg hn]
        by_cases hp : p (l.getD (first + n / 2) default)
        · rw [if_pos hp]
          obtain ⟨hb1, hb2⟩ := ih (n - (n / 2 + 1)) (by omega) (first + n / 2 + 1)
          constructor
          · omega
          · omega
        · rw [if_neg hp]
          obtain ⟨hb1, hb2⟩ := ih (n / 2) (by omega) first
          constructor
          · omega
          · omega

/-- On a counted range that is partitioned at `sp` (predicate true
strictly before `sp`, false from `sp` on), `partition_point_n` returns
`sp`. -/
theorem partition_point_n_spec [Inhabited α] (l : List α) (p : α → Bool) :
    ∀ (n first sp : Nat), first ≤ sp → sp ≤ first + n →
      (∀ i, first ≤ i → i < sp → p (l.getD i default) = true) →
      (∀ i, sp ≤ i → i < first + n → p (l.getD i default) = false) →
      partition_point_n l p first n = sp := by
  intro n
  induction n using Nat.strong_induction_on with
  | _ n ih =>
      intro first sp h1 h2 htrue hfalse
      rw [partition_point_n]
      by_cases hn : n = 0
      · subst hn
        simp only [if_pos]
        omega
      · rw [if_neg hn]
        by_cases hp : p (l.getD (first + n / 2) default)
        · rw [if_pos hp]
          have hmid : first + n / 2 < sp := by
            by_contra hc
            have := hfalse (first + n / 2) (by omega) (by omega)
            rw [this] at hp
            exact Bool.false_ne_true hp
          exact ih (n - (n / 2 + 1)) (by omega) (first + n / 2 + 1) sp (by omega) (by omega)
            (fun i hi1 hi2 => htrue i (by omega) hi2)
            (fun i hi1 hi2 => hfalse i hi1 (by omega))
        · rw [if_neg hp]
          have hmid : sp ≤ first + n / 2 := by
            by_contra hc
            have := htrue (first + n / 2) (by omega) (by omega)
            exact hp (by simpa using this)
          exact ih (n / 2) (by omega) first sp h1 (by omega)
            (fun i hi1 hi2 => htrue i hi1 hi2)
            (fun i hi1 hi2 => hfalse i hi1 (by omega))

/-- C4: on a range `[first, last)` partitioned at the split point `sp`
(`pred` true strictly before `sp` and false from `sp` on),
`partition_point` returns the cursor `sp`; in particular it returns `last`
when the predicate holds everywhere and `first` when it holds nowhere
(including the empty range). -/
theorem partition_point_at_split_point [Inhabited α] (l : List α) (pred : α → Bool)
    (first last sp : Nat) (h1 : first ≤ sp) (h2 : sp ≤ last) (_hlen : last ≤ l.length)
    (htrue : ∀ i, first ≤ i → i < sp → pred (l.getD i default) = true)
    (hfalse : ∀ i, sp ≤ i → i < last → pred (l.getD i default) = false) :
    partition_point l pred first last = sp := by
  have : first ≤ last := by omega
  exact partition_point_n_spec l pred (last - first) first sp h1 (by omega) htrue
    (fun i hi1 hi2 => hfalse i hi1 (by omega))

/-- C4 witness: on `[true, true, true, false, false]` with the identity
predicate the split point is the cursor at index 3. -/
theorem partition_point_at_split_point_witness :
    ((0 : Nat) ≤ 3 ∧ (3 : Nat) ≤ 5 ∧ (5 : Nat) ≤ [true, true, true, false, false].length ∧
      (∀ i, 0 ≤ i → i < 3 → ([true, true, true, false, false].getD i default) = true) ∧
      (∀ i, 3 ≤ i → i < 5 → ([true, true, true, false, false].getD i default) = false)) ∧
    partition_point [true, true, true, false, false] (fun b => b) 0 5 = 3 := by
  have htrue : ∀ i, 0 ≤ i → i < 3 → ([true, true, true, false, false].getD i default) = true := by
    intro i _ hi
    interval_cases i <;> rfl
  have hfalse : ∀ i, 3 ≤ i → i < 5 → ([true, true, true, false, false].getD i default) = false := by
    intro i hi1 hi2
    interval_cases i <;> rfl
  exact ⟨⟨by omega, by omega, by decide, htrue, hfalse⟩,
    partition_point_at_split_point [true, true, true, false, false] (fun b => b) 0 5 3
      (by omega) (by omega) (by decide) htrue hfalse⟩

/-- C5: `binary_search` returns true exactly when the partition point of
`element < value` is not the end cursor and holds `value`; it returns
false whenever the value is absent from the range, and on the examples:
present `5` is found, absent `4` is not, and the empty range yields
false. -/
theorem binary_search_spec :
    (∀ {α : Type} [Inhabited α] [DecidableEq α] (lt : α → α → Bool) (l : List α)
      (first last : Nat) (value : α), first ≤ last → last ≤ l.length →
      ((binary_search lt l first last value = true ↔
        (partition_point l (fun other => lt other value) first last ≠ last ∧
          l.getD (partition_point l (fun other => lt other value) first last) default = value)) ∧
       ((∀ i, first ≤ i → i < last → l.getD i default ≠ value) →
         binary_search lt l first last value = false))) ∧
    binary_search (fun a b : Nat => a < b) [1, 3, 3, 5, 7, 9] 0 6 5 = true ∧
    binary_search (fun a b : Nat => a < b) [1, 3, 3, 5, 7, 9] 0 6 4 = false ∧
    binary_search (fun a b : Nat => a < b) ([] : List Nat) 0 0 1 = false := by
  refine ⟨?_, ?_, ?_, ?_⟩
  · intro α _ _ lt l first last value hfl hlen
    constructor
    · simp only [binary_search]
      split
      · rename_i h
        simpa using h
      · rename_i h
        simpa using h
    · intro habsent
      simp only [binary_search]
      split
      · rename_i h
        obtain ⟨hne, hval⟩ := h
        obtain ⟨hb1, hb2⟩ :=
          partition_point_n_bounds l (fun other => lt other value) (last - first) first
        have hin : partition_point l (fun other => lt other value) first last < last := by
          simp only [partition_point] at *
          omega
        have hge : first ≤ partition_point l (fun other => lt other value) first last := by
          simp only [partition_point] at *
          omega
        exact absurd hval (habsent _ hge hin)
      · rfl
  · have h3 : partition_point [1, 3, 3, 5, 7, 9] (fun other => other < 5) 0 6 = 3 := by
      apply partition_point_n_spec
      · omega
      · omega
      · intro i _ hi; interval_cases i <;> rfl
      · intro i hi1 hi2; interval_cases i <;> rfl
    simp [binary_search, h3]
  · have h3 : partition_point [1, 3, 3, 5, 7, 9] (fun other => other < 4) 0 6 = 3 := by
      apply partition_point_n_spec
      · omega
      · omega
      · intro i _ hi; interval_cases i <;> rfl
      · intro i hi1 hi2; interval_cases i <;> rfl
    simp [binary_search, h3]
  · have h0 : partition_point ([] : List Nat) (fun other => other < 1) 0 0 = 0 := by
      apply partition_point_n_spec
      · omega
      · omega
      · intro i _ hi; omega
      · intro i hi1 hi2; omega
    simp [binary_search, h0]

/-- C5 witness: on `[1, 3, 3, 5, 7, 9]` searching for the absent `4`, the
search reports false. -/
theorem binary_search_spec_witness :
    ((0 : Nat) ≤ 6 ∧ (6 : Nat) ≤ [1, 3, 3, 5, 7, 9].length ∧
      (∀ i, 0 ≤ i → i < 6 → ([1, 3, 3, 5, 7, 9].getD i default) ≠ 4)) ∧
    binary_search (fun a b : Nat => a < b) [1, 3, 3, 5, 7, 9] 0 6 4 = false := by
  have habsent : ∀ i, 0 ≤ i → i < 6 → ([1, 3, 3, 5, 7, 9].getD i default) ≠ (4 : Nat) := by
    intro i _ hi
    interval_cases i <;> decide
  exact ⟨⟨by omega, by decide, habsent⟩,
    (binary_search_spec.1 (fun a b : Nat => a < b) [1, 3, 3, 5, 7, 9] 0 6 4
      (by omega) (by decide)).2 habsent⟩

/-! ### C6: min/max element under a strict weak ordering -/

section MinMax

variable {α : Type u} (comp : α → α → Bool)

/-- Asymmetry of a strict weak ordering comparator. -/
theorem swo_asymm (hirr : ∀ a, comp a a = false)
    (htrans : ∀ a b c, comp a b = true → comp b c = true → comp a c = true)
    {a b : α} (hab : comp a b = true) : comp b a = false := by
  by_contra hba
  have hba' : comp b a = true := by
    cases hcase : comp b a
    · exact absurd hcase hba
    · rfl
  have := htrans a b a hab hba'
  rw [hirr a] at this
  exact Bool.false_ne_true this

/-- Key strict-weak-order fact: from `a < b` and `not (c < b)` conclude
`a < c`. -/
theorem swo_key
    (htrans : ∀ a b c, comp a b = true → comp b c = true → comp a c = true)
    (hincomp : ∀ a b c, comp a b = false → comp b a = false →
      comp b c = false → comp c b = false → comp a c = false)
    {a b c : α} (hab : comp a b = true) (hcb : comp c b = false) : comp a c = true := by
  cases hbc : comp b c
  · cases hac : comp a c
    · exfalso
      cases hca : comp c a
      · have := hincomp a c b hac hca hcb hbc
        rw [this] at hab
        exact absurd hab (by decide)
      · have := htrans c a b hca hab
        rw [this] at hcb
        exact absurd hcb (by decide)
    · rfl
  · exact htrans a b c hab hbc

/-- Invariant of the `min_element` scanning loop: if `m` at index `best`
is a minimum of the scanned prefix and everything strictly before `best`
is strictly greater, the loop returns the position of a minimal element of
the whole list with everything strictly before it strictly greater. -/
theorem min_go_spec (hirr : ∀ a, comp a a = false)
    (htrans : ∀ a b c, comp a b = true → comp b c = true → comp a c = true)
    (hincomp : ∀ a b c, comp a b = false → comp b a = false →
      comp b c = false → comp c b = false → comp a c = false)
    (l : List α) :
    ∀ (xs : List α) (i best : Nat) (m : α),
      i ≤ l.length → l.drop i = xs → best < i → l[best]? = some m →
      (∀ (j : Nat) (y : α), j < i → l[j]? = some y → comp y m = false) →
      (∀ (j : Nat) (y : α), j < best → l[j]? = some y → comp m y = true) →
      min_element_go comp xs m i best < l.length ∧
      (∃ rv, l[min_element_go comp xs m i best]? = some rv ∧
        (∀ (j : Nat) (y : α), l[j]? = some y → comp y rv = false) ∧
        (∀ (j : Nat) (y : α), j < min_element_go comp xs m i best → l[j]? = some y → comp rv y = true)) := by
  intro xs
  induction xs with
  | nil =>
      intro i best m hi hdrop hbest hget h1 h2
      have hlen : l.length ≤ i := by
        have := congrArg List.length hdrop
        simp only [List.length_drop, List.length_nil] at this
        omega
      have hieq : i = l.length := by omega
      simp only [min_element_go]
      refine ⟨by omega, m, hget, ?_, ?_⟩
      · intro j y hj
        have hjlen : j < l.length := (List.getElem?_eq_some.mp hj).1
        exact h1 j y (by omega) hj
      · intro j y hj hget'
        exact h2 j y hj hget'
  | cons x xs' ih =>
      intro i best m hi hdrop hbest hget h1 h2
      have hx : l[i]? = some x := by
        have h0 := List.getElem?_drop l i 0
        rw [hdrop] at h0
        simpa using h0.symm
      have hilen : i < l.length := (List.getElem?_eq_some.mp hx).1
      have hdrop' : l.drop (i + 1) = xs' := by
        have : l.drop (i + 1) = (l.drop i).drop 1 := by
          rw [List.drop_drop]
        rw [this, hdrop]
        rfl
      simp only [min_element_go]
      cases hcmp : comp x m
      · simp only [Bool.false_eq_true, if_false]
        refine ih (i + 1) best m (by omega) hdrop' (by omega) hget ?_ h2
        intro j y hj hget'
        rcases Nat.lt_or_ge j i with hj' | hj'
        · exact h1 j y hj' hget'
        · have hj'' : j = i := by omega
          subst hj''
          rw [hget'] at hx
          rw [Option.some.injEq] at hx
          rw [hx]
          exact hcmp
      · simp only [if_true]
        refine ih (i + 1) i x (by omega) hdrop' (by omega) hx ?_ ?_
        · intro j y hj hget'
          rcases Nat.lt_or_ge j i with hj' | hj'
          · have hym : comp y m = false := h1 j y hj' hget'
            cases hyx : comp y x
            · rfl
            · exfalso
              have := htrans y x m hyx hcmp
              rw [this] at hym
              exact absurd hym (by decide)
          · have hj'' : j = i := by omega
            subst hj''
            rw [hget'] at hx
            rw [Option.some.injEq] at hx
            rw [hx]
            exact hirr x
        · intro j y hj hget'
          exact swo_key comp htrans hincomp hcmp (h1 j y hj hget')

/-- Invariant of the `max_element` scanning loop: if `m` at index `best`
is a maximum of the scanned prefix and everything strictly after `best`
(within the prefix) is strictly smaller, the loop returns the position of
a maximal element of the whole list with everything strictly after it
strictly smaller. -/
theorem max_go_spec (hirr : ∀ a, comp a a = false)
    (htrans : ∀ a b c, comp a b = true → comp b c = true → comp a c = true)
    (hincomp : ∀ a b c, comp a b = false → comp b a = false →
      comp b c = false → comp c b = false → comp a c = false)
    (l : List α) :
    ∀ (xs : List α) (i best : Nat) (m : α),
      i ≤ l.length → l.drop i = xs → best < i → l[best]? = some m →
      (∀ (j : Nat) (y : α), j < i → l[j]? = some y → comp m y = false) →
      (∀ (j : Nat) (y : α), best < j → j < i → l[j]? = some y → comp y m = true) →
      max_element_go comp xs m i best < l.length ∧
      (∃ rv, l[max_element_go comp xs m i best]? = some rv ∧
        (∀ (j : Nat) (y : α), l[j]? = some y → comp rv y = false) ∧
        (∀ (j : Nat) (y : α), max_element_go comp xs m i best < j → l[j]? = some y → comp y rv = true)) := by
  intro xs
  induction xs with
  | nil =>
      intro i best m hi hdrop hbest hget h1 h2
      have hlen : l.length ≤ i := by
        have := congrArg List.length hdrop
        simp only [List.length_drop, List.length_nil] at this
        omega
      have hieq : i = l.length := by omega
      simp only [max_element_go]
      refine ⟨by omega, m, hget, ?_, ?_⟩
      · intro j y hj
        have hjlen : j < l.length := (List.getElem?_eq_some.mp hj).1
        exact h1 j y (by omega) hj
      · intro j y hj hget'
        have hjlen : j < l.length := (List.getElem?_eq_some.mp hget').1
        exact h2 j y hj (by omega) hget'
  | cons x xs' ih =>
      intro i best m hi hdrop hbest hget h1 h2
      have hx : l[i]? = some x := by
        have h0 := List.getElem?_drop l i 0
        rw [hdrop] at h0
        simpa using h0.symm
      have hilen : i < l.length := (List.getElem?_eq_some.mp hx).1
      have hdrop' : l.drop (i + 1) = xs' := by
        have : l.drop (i + 1) = (l.drop i).drop 1 := by
          rw [List.drop_drop]
        rw [this, hdrop]
        rfl
      simp only [max_element_go]
      cases hcmp : comp x m
      · simp only [Bool.false_eq_true, if_false]
        refine ih (i + 1) i x (by omega) hdrop' (by omega) hx ?_ ?_
        · intro j y hj hget'
          rcases Nat.lt_or_ge j i with hj' | hj'
          · have hmy : comp m y = false := h1 j y hj' hget'
            cases hxy : comp x y
            · rfl
            · exfalso
              have := swo_key comp htrans hincomp hxy hmy
              rw [this] at hcmp
              exact absurd hcmp (by decide)
          · have hj'' : j = i := by omega
            subst hj''
            rw [hget'] at hx
            rw [Option.some.injEq] at hx
            rw [hx]
            exact hirr x
        · intro j y hj hj' hget'
          exact absurd hj' (by omega)
      · simp only [if_true]
        refine ih (i + 1) best m (by omega) hdrop' (by omega) hget ?_ ?_
        · intro j y hj hget'
          rcases Nat.lt_or_ge j i with hj' | hj'
          · exact h1 j y hj' hget'
          · have hj'' : j = i := by omega
            subst hj''
            rw [hget'] at hx
            rw [Option.some.injEq] at hx
            rw [hx]
            exact swo_asymm comp hirr htrans hcmp
        · intro j y hjb hj hget'
          rcases Nat.lt_or_ge j i with hj' | hj'
          · exact h2 j y hjb hj' hget'
          · have hj'' : j = i := by omega
            subst hj''
            rw [hget'] at hx
            rw [Option.some.injEq] at hx
            rw [hx]
            exact hcmp

end MinMax

/-- C6: under a strict weak ordering comparator, on a non-empty range
`min_element` returns a position holding a minimal element such that every
strictly earlier element is strictly greater (hence it is the FIRST
minimal position), and `max_element` returns a position holding a maximal
element such that every strictly later element is strictly smaller (hence
it is the LAST maximal position); on the empty range both return the end
cursor, and on `[2,5,5,1,5]` with `<` they return indices 3 and 4. -/
theorem min_max_element_tie_breaking :
    (∀ {α : Type u} (comp : α → α → Bool),
      (∀ a, comp a a = false) →
      (∀ a b c, comp a b = true → comp b c = true → comp a c = true) →
      (∀ a b c, comp a b = false → comp b a = false →
        comp b c = false → comp c b = false → comp a c = false) →
      ∀ (l : List α), l ≠ [] →
      (min_element comp l < l.length ∧
       (∃ mv, l[min_element comp l]? = some mv ∧
         (∀ (j : Nat) (y : α), l[j]? = some y → comp y mv = false) ∧
         (∀ (k : Nat) (y : α), k < min_element comp l → l[k]? = some y → comp mv y = true)) ∧
       max_element comp l < l.length ∧
       (∃ wv, l[max_element comp l]? = some wv ∧
         (∀ (j : Nat) (y : α), l[j]? = some y → comp wv y = false) ∧
         (∀ (k : Nat) (y : α), max_element comp l < k → l[k]? = some y → comp y wv = true)))) ∧
    (∀ {α : Type u} (comp : α → α → Bool),
      min_element comp ([] : List α) = 0 ∧ max_element comp ([] : List α) = 0) ∧
    min_element (fun a b : Nat => a < b) [2, 5, 5, 1, 5] = 3 ∧
    max_element (fun a b : Nat => a < b) [2, 5, 5, 1, 5] = 4 := by
  refine ⟨?_, ?_, by decide, by decide⟩
  · intro α comp hirr htrans hincomp l hne
    match l with
    | x :: xs =>
        have hmin := min_go_spec comp hirr htrans hincomp (x :: xs) xs 1 0 x
          (by simp) rfl (by omega) (by simp)
          (by
            intro j y hj hget'
            have hj0 : j = 0 := by omega
            subst hj0
            simp only [List.getElem?_cons_zero, Option.some.injEq] at hget'
            rw [hget']
            exact hirr y)
          (by
            intro j y hj hget'
            exact absurd hj (by omega))
        have hmax := max_go_spec comp hirr htrans hincomp (x :: xs) xs 1 0 x
          (by simp) rfl (by omega) (by simp)
          (by
            intro j y hj hget'
            have hj0 : j = 0 := by omega
            subst hj0
            simp only [List.getElem?_cons_zero, Option.some.injEq] at hget'
            rw [hget']
            exact hirr y)
          (by
            intro j y hj hj' hget'
            exact absurd hj' (by omega))
        simp only [min_element, max_element]
        exact ⟨hmin.1, hmin.2, hmax.1, hmax.2⟩
  · intro α comp
    exact ⟨rfl, rfl⟩

/-- C6 witness: on `[2,5,5,1,5]` with the natural-number `<` (a strict
weak ordering), the minimum cursor is in range. -/
theorem min_max_element_tie_breaking_witness :
    (∀ a : Nat, (decide (a < a) : Bool) = false) ∧
    [2, 5, 5, 1, 5] ≠ ([] : List Nat) ∧
    min_element (fun a b : Nat => a < b) [2, 5, 5, 1, 5] < [2, 5, 5, 1, 5].length :=
  ⟨fun a => by simp, by decide,
    (min_max_element_tie_breaking.1 (fun a b : Nat => a < b)
      (fun a => by simp)
      (fun a b c hab hbc => by
        simp only [decide_eq_true_eq] at *
        omega)
      (fun a b c h1 h2 h3 h4 => by
        simp only [decide_eq_false_iff_not] at *
        omega)
      [2, 5, 5, 1, 5] (by decide)).1⟩

end GenericProg
